import Mathlib

/-!
Verification of the mortal-blog article-index build pipeline.

The repository contains two variants of the build script:
* `build/generate-articles.js` — the inline `<meta ... />` attribute-tag
  variant, embedded below in namespace `TagBuild`;
* an older variant using the gray-matter front-matter parser, embedded
  below in namespace `FmBuild`.

JavaScript strings are modelled as lists of characters (`Str`), one entry
per code point.  File-system access is modelled by explicit oracles: the
directory enumeration is an `Option (List Str)` (`none` = the articles
root is missing, so `readdirSync` throws) and file reads are a function
`Str → Option Str` (`none` = `readFileSync` throws for that path).
-/

/-- JavaScript strings, modelled as lists of characters (code points). -/
abbrev Str := List Char

/-- Coerce a Lean string literal into the model's string type. -/
def str (s : String) : Str := s.data

/-- The single-quote character (ASCII 39). -/
def squote : Char := Char.ofNat 39

/-- JS `\w` character class: ASCII letters, digits and underscore. -/
def isWordChar (c : Char) : Bool := c.isAlphanum || c = '_'

/-- Either of the two quote characters accepted by the attribute pattern. -/
def isQuoteCh (c : Char) : Bool := c = '"' || c = squote

/-- JS `String.prototype.trim`: strip leading and trailing whitespace. -/
def jsTrim (l : Str) : Str :=
  ((l.dropWhile Char.isWhitespace).reverse.dropWhile Char.isWhitespace).reverse

/-- JS `split(c)` for a one-character separator: split at every occurrence
of `c`, keeping empty pieces. -/
def splitCh (c : Char) : Str → List Str
  | [] => [[]]
  | x :: xs =>
    let r := splitCh c xs
    if x = c then [] :: r
    else match r with
      | [] => [[x]]
      | h :: t => (x :: h) :: t

/-- Split a list at the first occurrence of `c`: the part strictly before
and the part strictly after.  `none` when `c` does not occur. -/
def splitAtCh (c : Char) : Str → Option (Str × Str)
  | [] => none
  | x :: xs =>
    if x = c then some ([], xs)
    else (splitAtCh c xs).map (fun p => (x :: p.1, p.2))

theorem splitAtCh_eq (c : Char) :
    ∀ (l b a : Str), splitAtCh c l = some (b, a) → l = b ++ c :: a := by
  intro l
  induction l with
  | nil => intro b a h; simp [splitAtCh] at h
  | cons x xs ih =>
    intro b a h
    by_cases hx : x = c
    · simp [splitAtCh, hx] at h
      simp [hx, ← h.1, ← h.2]
    · rw [splitAtCh, if_neg hx, Option.map_eq_some'] at h
      obtain ⟨p, hp, hba⟩ := h
      have hb : x :: p.1 = b := congrArg Prod.fst hba
      have ha : p.2 = a := congrArg Prod.snd hba
      subst hb; subst ha
      simp [ih _ _ hp]

/-- JS `replace(pat, repl)` with a plain-string pattern: replace only the
first occurrence of `pat`. -/
def replaceFirst (pat repl : Str) : Str → Str
  | [] => if pat = [] then repl else []
  | x :: xs =>
    if pat.isPrefixOf (x :: xs) then repl ++ (x :: xs).drop pat.length
    else x :: replaceFirst pat repl xs

/-- Node `path.basename`: the portion after the last slash. -/
def basename (p : Str) : Str := (p.reverse.takeWhile (fun c => c ≠ '/')).reverse

/-- Node `path.extname`: the suffix of the basename starting at its last
dot, provided that dot is not the basename's first character. -/
def extname (p : Str) : Str :=
  let b := basename p
  let after := b.reverse.takeWhile (fun c => c ≠ '.')
  if after.length + 1 < b.length then b.drop (b.length - after.length - 1)
  else []

/-- A directory entry is collected by `getMarkdownFiles` when its
`extname` is `.md`. -/
def isMdFile (p : Str) : Bool := extname p = str ".md"

/-- Node `path.relative('./articles', p)` for the paths the scanner
produces (all of the form `articles/...`): drop the root prefix. -/
def relArticles (p : Str) : Str :=
  if (str "articles/").isPrefixOf p then p.drop 9 else p

/-- Modelled from the spec: JavaScript `new Date(s)` parsing of the
ISO `YYYY-MM-DD` date strings used by the corpus, encoded monotonically
(so that comparisons of the encodings agree with comparisons of the
timestamps for calendar dates); any other shape is an invalid date
(`none`, the model of `NaN`). -/
def jsDateParse : Str → Option Int
  | [y1, y2, y3, y4, h1, m1, m2, h2, d1, d2] =>
    if y1.isDigit ∧ y2.isDigit ∧ y3.isDigit ∧ y4.isDigit ∧ h1 = '-' ∧
        m1.isDigit ∧ m2.isDigit ∧ h2 = '-' ∧ d1.isDigit ∧ d2.isDigit then
      let y := 1000 * (y1.toNat - 48) + 100 * (y2.toNat - 48) +
               10 * (y3.toNat - 48) + (y4.toNat - 48)
      let m := 10 * (m1.toNat - 48) + (m2.toNat - 48)
      let d := 10 * (d1.toNat - 48) + (d2.toNat - 48)
      if 1 ≤ m ∧ m ≤ 12 ∧ 1 ≤ d ∧ d ≤ 31 then
        some ((372 * y + 31 * (m - 1) + (d - 1) : Nat) : Int)
      else none
    else none
  | _ => none

/-- Subtraction of two JS date values: `NaN` when either side is an
invalid date.  `Array.prototype.sort` maps a `NaN` comparator result to
`+0`, so the model returns `0` directly in that case. -/
def jsSub (x y : Option Int) : Int :=
  match x, y with
  | some a, some b => a - b
  | _, _ => 0

/-- One article record as emitted by `extractArticleInfo`: exactly the
seven keys of the object literal.  A field an object literal sets to a
possibly-`undefined` expression is modelled as an `Option`. -/
structure Article where
  title : Option Str
  filePath : Str
  cover : Option Str
  date : Option Str
  wordCount : Nat
  preview : Option Str
  tags : List Str
deriving DecidableEq, Repr

/-- The date value a record contributes to the sort comparator. -/
def dateVal (r : Article) : Option Int := r.date.bind jsDateParse

/-- The comparator of `generate-articles.js` line 85:
`(a, b) => new Date(b.date) - new Date(a.date)`. -/
def cmpDate (a b : Article) : Int := jsSub (dateVal b) (dateVal a)

/-- The comparator of line 88 (and of the front-matter variant's only
sort): `(a, b) => new Date(b.modified) - new Date(a.modified)`.  The
records carry no `modified` field, so both operands are `NaN` and every
comparison is treated as `+0`. -/
def cmpModified (_ _ : Article) : Int := 0

/-- Stable insertion used to model `Array.prototype.sort` (stable since
ES2019): `x`, which precedes the list elements in original order, stays
before every element it ties with or precedes. -/
def insertJs (c : α → α → Int) (x : α) : List α → List α
  | [] => [x]
  | y :: ys => if c x y ≤ 0 then x :: y :: ys else y :: insertJs c x ys

/-- `Array.prototype.sort` with comparator `c`, modelled as a stable
insertion sort; agrees with the engine's stable sort for consistent
comparators. -/
def sortJs (c : α → α → Int) : List α → List α
  | [] => []
  | x :: xs => insertJs c x (sortJs c xs)

theorem insertJs_perm (c : α → α → Int) (x : α) :
    ∀ l : List α, (insertJs c x l).Perm (x :: l) := by
  intro l
  induction l with
  | nil => simp [insertJs]
  | cons y ys ih =>
    by_cases h : c x y ≤ 0
    · simp [insertJs, h]
    · simp only [insertJs, if_neg h]
      exact (ih.cons y).trans (List.Perm.swap x y ys)

theorem sortJs_perm (c : α → α → Int) :
    ∀ l : List α, (sortJs c l).Perm l := by
  intro l
  induction l with
  | nil => simp [sortJs]
  | cons x xs ih =>
    exact (insertJs_perm c x (sortJs c xs)).trans (ih.cons x)

theorem insertJs_chain (c : α → α → Int) (hc : ∀ a b, c a b = -c b a)
    (x : α) : ∀ l : List α, l.Chain' (fun a b => c a b ≤ 0) →
    (insertJs c x l).Chain' (fun a b => c a b ≤ 0) := by
  intro l
  induction l with
  | nil => intro _; simp [insertJs]
  | cons y ys ih =>
    intro hch
    rw [List.chain'_cons'] at hch
    by_cases h : c x y ≤ 0
    · simp only [insertJs, if_pos h]
      rw [List.chain'_cons']
      refine ⟨?_, List.chain'_cons'.2 hch⟩
      intro z hz
      simp at hz
      exact hz ▸ h
    · simp only [insertJs, if_neg h]
      rw [List.chain'_cons']
      refine ⟨?_, ih hch.2⟩
      intro z hz
      cases ys with
      | nil =>
        simp [insertJs] at hz
        subst hz
        have hyx : c y x = -c x y := hc y x
        omega
      | cons w ws =>
        by_cases hw : c x w ≤ 0
        · simp [insertJs, hw] at hz
          subst hz
          have hyx : c y x = -c x y := hc y x
          omega
        · simp [insertJs, hw] at hz
          exact hz ▸ hch.1 w rfl

theorem sortJs_chain (c : α → α → Int) (hc : ∀ a b, c a b = -c b a)
    (l : List α) : (sortJs c l).Chain' (fun a b => c a b ≤ 0) := by
  induction l with
  | nil => simp [sortJs]
  | cons x xs ih => exact insertJs_chain c hc x _ ih

theorem sortJs_const_zero :
    ∀ l : List α, sortJs (fun _ _ => (0 : Int)) l = l := by
  intro l
  induction l with
  | nil => rfl
  | cons x xs ih =>
    rw [sortJs, ih]
    cases xs <;> simp [insertJs]

/-- `cmpDate` is antisymmetric, also in the presence of invalid dates. -/
theorem cmpDate_antisym : ∀ a b : Article, cmpDate a b = -cmpDate b a := by
  intro a b
  unfold cmpDate jsSub
  cases dateVal a <;> cases dateVal b <;> simp [neg_sub]

/-- `files.map(extract)` when each extraction may throw: the first
exception aborts the whole traversal. -/
def mapOrAbort (f : α → Option β) : List α → Option (List β)
  | [] => some []
  | x :: xs =>
    match f x with
    | none => none
    | some y => (mapOrAbort f xs).map (y :: ·)

theorem mapOrAbort_some (f : α → Option β) :
    ∀ {l : List α} {out : List β}, mapOrAbort f l = some out →
      l.map f = out.map some := by
  intro l
  induction l with
  | nil => intro out h; simp [mapOrAbort] at h; simp [← h]
  | cons x xs ih =>
    intro out h
    simp only [mapOrAbort] at h
    cases hfx : f x with
    | none => rw [hfx] at h; simp at h
    | some y =>
      rw [hfx] at h
      simp only [Option.map_eq_some'] at h
      obtain ⟨os, hos, hout⟩ := h
      subst hout
      simp [hfx, ih hos]

theorem mapOrAbort_length (f : α → Option β) {l : List α} {out : List β}
    (h : mapOrAbort f l = some out) : out.length = l.length := by
  have := congrArg List.length (mapOrAbort_some f h)
  simpa using this.symm

theorem mapOrAbort_mem (f : α → Option β) {l : List α} {out : List β}
    (h : mapOrAbort f l = some out) {y : β} (hy : y ∈ out) :
    ∃ x ∈ l, f x = some y := by
  have hmap := mapOrAbort_some f h
  have : some y ∈ l.map f := by
    rw [hmap]; exact List.mem_map_of_mem some hy
  obtain ⟨x, hx, hfx⟩ := List.mem_map.1 this
  exact ⟨x, hx, hfx⟩

theorem mapOrAbort_none (f : α → Option β) {l : List α} {x : α}
    (hx : x ∈ l) (hfx : f x = none) : mapOrAbort f l = none := by
  induction l with
  | nil => simp at hx
  | cons a as ih =>
    rcases List.mem_cons.1 hx with h | h
    · subst h; simp [mapOrAbort, hfx]
    · simp only [mapOrAbort]
      cases hfa : f a with
      | none => rfl
      | some y => simp [ih h]

/-- JS `replace(whitespace-run, ' ')` applied globally: collapse every
run of whitespace to a single space.  The fuel argument is bounded by
the input length; every step consumes at least one character, so fuel
`l.length` is always sufficient and the exhaustion branch is dead. -/
def collapseF : Nat → Str → Str
  | 0, _ => []
  | _, [] => []
  | n + 1, c :: rest =>
    if c.isWhitespace then ' ' :: collapseF n (rest.dropWhile Char.isWhitespace)
    else c :: collapseF n rest

/-- Collapse whitespace runs to single spaces (global regex replace). -/
def collapseWs (l : Str) : Str := collapseF l.length l

/-- JS `replace(tag-pattern, '')` applied globally: delete every
leftmost occurrence of `<`, one or more non-`>` characters, `>`.  Fuel
as in `collapseF`. -/
def stripTagsF : Nat → Str → Str
  | 0, _ => []
  | _, [] => []
  | n + 1, c :: rest =>
    if c = '<' then
      match splitAtCh '>' rest with
      | some (pre, post) =>
        if pre.isEmpty then c :: stripTagsF n rest
        else stripTagsF n post
      | none => c :: stripTagsF n rest
    else c :: stripTagsF n rest

/-- Strip every HTML tag occurrence from the text. -/
def stripTags (l : Str) : Str := stripTagsF l.length l

namespace TagBuild

/-- The anchored tag pattern of `generate-articles.js` line 32: the text
must start with `<meta`, then one or more whitespace characters, then at
least one non-`>` character before the first `>` (the optional slash is
absorbed by that group).  The returned capture is what the greedy
whitespace run leaves of the segment before the first `>`. -/
def matchMeta (l : Str) : Option Str :=
  if (str "<meta").isPrefixOf l then
    let rest := l.drop 5
    match splitAtCh '>' rest with
    | some (pre, _) =>
      if 2 ≤ pre.length ∧ pre.head?.any Char.isWhitespace then
        let w := (pre.takeWhile Char.isWhitespace).length
        some (pre.drop (min w (pre.length - 1)))
      else none
    | none => none
  else none

/-- One attempt of the attribute pattern at the head of `l`: a maximal
run of word characters, `=`, a quote, a maximal nonempty run of
non-quote characters, a closing quote (either kind).  Returns the key,
the value and the remainder after the closing quote. -/
def tryAttr (l : Str) : Option (Str × Str × Str) :=
  let w := l.takeWhile isWordChar
  if w.isEmpty then none
  else
    match l.drop w.length with
    | e :: q :: rest =>
      if e = '=' ∧ isQuoteCh q then
        let v := rest.takeWhile (fun c => ¬ isQuoteCh c)
        if v.isEmpty then none
        else
          match rest.drop v.length with
          | _ :: rem => some (w, v, rem)
          | [] => none
      else none
    | _ => none

/-- The global attribute scan (line 36): repeatedly find the leftmost
match of the attribute pattern, collecting key/value pairs; on failure
at a position, resume one character later.  Fuel as in `collapseF`:
every successful match consumes at least five characters. -/
def scanAttrsF : Nat → Str → List (Str × Str)
  | 0, _ => []
  | _, [] => []
  | n + 1, c :: cs =>
    match tryAttr (c :: cs) with
    | some (k, v, rem) => (k, v) :: scanAttrsF n rem
    | none => scanAttrsF n cs

/-- All `key="value"` attribute pairs of the captured tag content. -/
def scanAttrs (l : Str) : List (Str × Str) := scanAttrsF l.length l

/-- The `data` object built from the attribute pairs.  The `tags` key is
transformed at insertion time (lines 42–44): split on the full-width
comma and trim each element; later attributes overwrite earlier ones. -/
structure JsMeta where
  strs : List (Str × Str)
  tags : Option (List Str)
deriving DecidableEq, Repr

def emptyMeta : JsMeta := ⟨[], none⟩

/-- `data[key] = value` with the tags transformation of lines 42–44. -/
def insertAttr (d : JsMeta) (p : Str × Str) : JsMeta :=
  if p.1 = str "tags" then
    { d with tags := some (((splitCh '，' p.2).map jsTrim)) }
  else { d with strs := p :: d.strs }

def buildData (ps : List (Str × Str)) : JsMeta := ps.foldl insertAttr emptyMeta

/-- Property lookup on the `data` object: the most recent assignment to
the key, `none` when the key was never assigned (JS `undefined`). -/
def lookupStr (d : JsMeta) (k : Str) : Option Str :=
  (d.strs.find? (fun p => p.1 = k)).map Prod.snd

/-- The `data` object the extractor builds from a raw file text. -/
def metaData (raw : Str) : JsMeta :=
  match matchMeta raw with
  | some cap => buildData (scanAttrs cap)
  | none => emptyMeta

/-- The attribute pairs the scan yields on a raw file text (empty when
the leading tag pattern does not match). -/
def attrsOf (raw : Str) : List (Str × Str) :=
  match matchMeta raw with
  | some cap => scanAttrs cap
  | none => []

/-- Modelled from the spec: the external showdown markdown→HTML
converter (`converter.makeHtml`).  The claims under verification do not
depend on the rendered markup, only on the tag-stripped text, so the
conversion is abstracted as the identity on the text. -/
def makeHtml (s : Str) : Str := s

/-- `extractArticleInfo` of `build/generate-articles.js` (lines 29–72),
given the already-read file content. -/
def extractCore (filePath raw : Str) : Article :=
  let data := metaData raw
  let html := makeHtml raw
  let content := stripTags html
  let relativePath := relArticles filePath
  let wordCount := (jsTrim (collapseWs content)).length
  { title := lookupStr data (str "title")
    filePath := relativePath
    cover := lookupStr data (str "cover")
    date := lookupStr data (str "date")
    wordCount := wordCount
    preview := lookupStr data (str "desc")
    tags := (data.tags).getD [] }

/-- `extractArticleInfo` including the `fs.readFileSync` call: a failed
read throws, modelled as `none`. -/
def extractArticleInfo (read : Str → Option Str) (filePath : Str) :
    Option Article :=
  (read filePath).map (extractCore filePath)

/-- The slug computed (and then discarded) at lines 57–58:
`path.basename(filePath).replace('.md', '')`. -/
def slugOfPath (p : Str) : Str := replaceFirst (str ".md") [] (basename p)

/-- `processArticles` of `build/generate-articles.js` (lines 75–104).
The recursive `getMarkdownFiles` walk is modelled by its result: the
flat enumeration of entries (`none` when the articles root is missing
and `readdirSync` throws), filtered to `.md` files.  The mapped records
are sorted by the date comparator (line 85) and then again by the
vacuous `modified` comparator (line 88); an exception from any file read
aborts the whole run. -/
def processArticles (listing : Option (List Str))
    (read : Str → Option Str) : Option (List Article) :=
  match listing with
  | none => none
  | some items =>
    let files := items.filter isMdFile
    (mapOrAbort (extractArticleInfo read) files).map
      (fun arts => sortJs cmpModified (sortJs cmpDate arts))

end TagBuild

namespace FmBuild

/-- The front-matter data object: string-valued keys plus the `tags`
sequence (the only key the spec describes as a sequence value). -/
structure FmMeta where
  strs : List (Str × Str)
  tags : Option (List Str)
deriving DecidableEq, Repr

def emptyMeta : FmMeta := ⟨[], none⟩

/-- Does the raw text open with the front-matter block marker (a first
line that is exactly `---`)? -/
def hasFrontMatter (raw : Str) : Bool :=
  match splitCh '\n' raw with
  | first :: _ :: _ => first = str "---"
  | _ => false

/-- Parse the delimited block's lines into the data object: `key: value`
lines become string entries (later ones overwrite earlier ones for
lookup); a bare `tags:` line followed by `- item` lines becomes the
tags sequence. -/
def parseBlockGo (d : FmMeta) (inTags : Bool) : List Str → FmMeta
  | [] => d
  | line :: rest =>
    let t := jsTrim line
    if inTags ∧ (str "- ").isPrefixOf t then
      parseBlockGo { d with tags := some ((d.tags).getD [] ++ [jsTrim (t.drop 2)]) }
        true rest
    else
      match splitAtCh ':' t with
      | some (k, v) =>
        let k := jsTrim k
        let v := jsTrim v
        if k = str "tags" ∧ v = [] then
          parseBlockGo { d with tags := some [] } true rest
        else parseBlockGo { d with strs := (k, v) :: d.strs } false rest
      | none => parseBlockGo d false rest

/-- Find the line index of the closing `---` delimiter. -/
def findClose : List Str → Option Nat
  | [] => none
  | line :: rest =>
    if line = str "---" then some 0
    else (findClose rest).map (· + 1)

/-- Modelled from the spec: the external gray-matter front-matter parser
(`matter(fileContent)`).  Strategy A's format: the text opens with a
`---` line, the block of `key: value` lines runs to the next `---` line,
and everything after that line is the body.  Text without the leading
marker (or without a closing marker) is all body with an empty data
object. -/
def matter (raw : Str) : FmMeta × Str :=
  let ls := splitCh '\n' raw
  match ls with
  | first :: rest =>
    if first = str "---" then
      match findClose rest with
      | some i =>
        (parseBlockGo emptyMeta false (rest.take i),
         List.intercalate (str "\n") (rest.drop (i + 1)))
      | none => (emptyMeta, raw)
    else (emptyMeta, raw)
  | [] => (emptyMeta, raw)

/-- Property lookup on the data object (JS `data.key`). -/
def lookupStr (d : FmMeta) (k : Str) : Option Str :=
  (d.strs.find? (fun p => p.1 = k)).map Prod.snd

/-- JS truthiness of a possibly-absent string value: `undefined` and the
empty string are falsy. -/
def jsTruthy : Option Str → Bool
  | some s => !s.isEmpty
  | none => false

/-- JS `a || b || ''` over two possibly-absent string values. -/
def jsOr3 (a b : Option Str) : Str :=
  if jsTruthy a then a.getD []
  else if jsTruthy b then b.getD []
  else []

/-- The word-count of the front-matter variant (line 40):
`content.trim() ? content.trim().split(whitespace-run).length : 0`. -/
def fmWordCount (content : Str) : Nat :=
  if (jsTrim content).isEmpty then 0
  else ((jsTrim content).splitOnP Char.isWhitespace |>.filter
    (fun t => ¬ t.isEmpty)).length

/-- The preview derivation of lines 47–48: nonblank lines, first five,
joined with single spaces, cut to 50 characters, ellipsis appended. -/
def fmPreview (content : Str) : Str :=
  let previewLines := ((splitCh '\n' content).filter
    (fun l => ¬ (jsTrim l).isEmpty)).take 5
  (List.intercalate (str " ") previewLines).take 50 ++ str "..."

/-- `extractArticleInfo` of the front-matter variant (lines 30–59),
given the already-read file content.  The modification time fetched at
lines 43–44 is dropped: it does not enter the returned record. -/
def extractCore (filePath raw : Str) : Article :=
  let parsed := matter raw
  let data := parsed.1
  let content := parsed.2
  let relativePath := relArticles filePath
  { title := lookupStr data (str "title")
    filePath := relativePath
    cover := some (jsOr3 (lookupStr data (str "cover"))
      (lookupStr data (str "image")))
    date := lookupStr data (str "date")
    wordCount := fmWordCount content
    preview := some (fmPreview content)
    tags := (data.tags).getD [] }

/-- `extractArticleInfo` including the `fs.readFileSync` call. -/
def extractArticleInfo (read : Str → Option Str) (filePath : Str) :
    Option Article :=
  (read filePath).map (extractCore filePath)

/-- `processArticles` of the front-matter variant (lines 62–91): map
over the enumerated `.md` files (no date sort in this variant), then the
vacuous `modified` sort. -/
def processArticles (listing : Option (List Str))
    (read : Str → Option Str) : Option (List Article) :=
  match listing with
  | none => none
  | some items =>
    let files := items.filter isMdFile
    (mapOrAbort (extractArticleInfo read) files).map (sortJs cmpModified)

end FmBuild

/-! ### Proof support -/

theorem sortJs_cmpModified (l : List Article) : sortJs cmpModified l = l :=
  sortJs_const_zero l

theorem takeWhile_append_char (p : Char → Bool) :
    ∀ l1 l2 : Str, (l1 ++ l2).takeWhile p =
      if l1.all p then l1 ++ l2.takeWhile p else l1.takeWhile p := by
  intro l1 l2
  induction l1 with
  | nil => simp
  | cons x xs ih =>
    by_cases hx : p x
    · simp [List.takeWhile_cons, hx, ih]
      by_cases hall : ∀ y ∈ xs, p y = true
      · rw [if_pos hall, if_pos hall]
      · rw [if_neg hall, if_neg hall]
    · simp [List.takeWhile_cons, hx, List.all_cons]

/-- The basename is unaffected by a path prefix ending in a slash. -/
theorem basename_articles_append (b : Str) :
    basename (str "articles/" ++ b) = basename b := by
  unfold basename
  rw [List.reverse_append]
  have : (str "articles/").reverse = '/' :: (str "articles").reverse := rfl
  rw [this]
  rw [takeWhile_append_char]
  by_cases hall : b.reverse.all (fun c => decide (c ≠ '/')) = true
  · simp only [hall, if_true]
    have h1 : List.takeWhile (fun c => decide (c ≠ '/'))
        ('/' :: (str "articles").reverse) = [] := by
      simp [List.takeWhile_cons]
    rw [h1, List.append_nil]
    have h2 : b.reverse.takeWhile (fun c => decide (c ≠ '/')) = b.reverse :=
      List.takeWhile_eq_self_iff.2 (by
        intro c hc
        exact List.all_eq_true.1 hall c hc)
    rw [h2]
  · rw [if_neg hall]

theorem basename_suffix (p : Str) : basename p <:+ p := by
  unfold basename
  have h := @List.takeWhile_prefix _ p.reverse (fun c => decide (c ≠ '/'))
  have := List.reverse_suffix.2 h
  simpa using this

theorem extname_suffix (p : Str) : extname p <:+ basename p := by
  unfold extname
  by_cases h : ((basename p).reverse.takeWhile (fun c => decide (c ≠ '.'))).length + 1 <
      (basename p).length
  · simp only [h, if_true]
    exact List.drop_suffix _ _
  · simp only [h, if_false]
    exact List.nil_suffix

/-- A `.md`-filtered path keeps its `.md` suffix through
`path.relative`. -/
theorem relArticles_md_suffix (p : Str) (h : isMdFile p = true) :
    str ".md" <:+ relArticles p := by
  have hext : extname p = str ".md" := by
    simpa [isMdFile] using h
  have hbase : str ".md" <:+ basename p := hext ▸ extname_suffix p
  unfold relArticles
  by_cases hp : (str "articles/").isPrefixOf p = true
  · simp only [hp, if_true]
    obtain ⟨t, ht⟩ := List.isPrefixOf_iff_prefix.1 hp
    have hdrop : p.drop 9 = t := by
      rw [← ht, show (9 : Nat) = (str "articles/").length from rfl,
        List.drop_left]
    have : basename p = basename t := by
      rw [← ht, basename_articles_append]
    rw [hdrop]
    exact (this ▸ hbase).trans (basename_suffix t)
  · simp only [hp, if_false]
    exact hbase.trans (basename_suffix p)

theorem option_map_or (g : α → β) (a b : Option α) :
    (a.or b).map g = (a.map g).or (b.map g) := by
  cases a <;> rfl

namespace TagBuild

theorem lookup_foldl (k : Str) (hk : k ≠ str "tags") :
    ∀ (ps : List (Str × Str)) (d : JsMeta),
      lookupStr (ps.foldl insertAttr d) k =
        ((ps.reverse.find? (fun p => p.1 = k)).map Prod.snd).or
          (lookupStr d k) := by
  intro ps
  induction ps with
  | nil => intro d; simp
  | cons p ps ih =>
    intro d
    rw [List.foldl_cons, ih]
    have hstep : lookupStr (insertAttr d p) k =
        (((([p] : List (Str × Str)).find? (fun q => q.1 = k)).map
          Prod.snd).or (lookupStr d k)) := by
      unfold insertAttr lookupStr
      by_cases hp : p.1 = str "tags"
      · rw [if_pos hp]
        have htk : (([p] : List (Str × Str)).find? (fun q => q.1 = k)) =
            none := by
          have : ¬ (p.1 = k) := fun hc => hk (hc ▸ hp)
          simp [List.find?, this]
        rw [htk]
        simp
      · rw [if_neg hp]
        by_cases hpk : p.1 = k
        · simp [List.find?, hpk]
        · simp [List.find?, hpk]
    rw [hstep, List.reverse_cons, List.find?_append, option_map_or,
      Option.or_assoc]

theorem tags_foldl :
    ∀ (ps : List (Str × Str)) (d : JsMeta),
      (ps.foldl insertAttr d).tags =
        ((ps.reverse.find? (fun p => p.1 = str "tags")).map
          (fun p => (splitCh '，' p.2).map jsTrim)).or d.tags := by
  intro ps
  induction ps with
  | nil => intro d; simp
  | cons p ps ih =>
    intro d
    rw [List.foldl_cons, ih]
    have hstep : (insertAttr d p).tags =
        ((([p] : List (Str × Str)).find? (fun q => q.1 = str "tags")).map
          (fun q => (splitCh '，' q.2).map jsTrim)).or d.tags := by
      unfold insertAttr
      by_cases hp : p.1 = str "tags"
      · simp [hp, List.find?]
      · simp [hp, List.find?]
    rw [hstep, List.reverse_cons, List.find?_append, option_map_or,
      Option.or_assoc]

theorem lookup_metaData (raw k : Str) (hk : k ≠ str "tags") :
    lookupStr (metaData raw) k =
      ((attrsOf raw).reverse.find? (fun p => p.1 = k)).map Prod.snd := by
  unfold metaData attrsOf
  cases matchMeta raw with
  | none => simp [lookupStr, emptyMeta]
  | some cap =>
    simp only
    rw [buildData, lookup_foldl k hk]
    simp [lookupStr, emptyMeta]

theorem tags_metaData (raw : Str) :
    (metaData raw).tags =
      ((attrsOf raw).reverse.find? (fun p => p.1 = str "tags")).map
        (fun p => (splitCh '，' p.2).map jsTrim) := by
  unfold metaData attrsOf
  cases matchMeta raw with
  | none => simp [emptyMeta]
  | some cap =>
    simp only
    rw [buildData, tags_foldl]
    simp [emptyMeta]

theorem tagProcess_some {items : List Str} {read : Str → Option Str}
    {out : List Article}
    (h : processArticles (some items) read = some out) :
    ∃ arts, mapOrAbort (extractArticleInfo read)
        (items.filter isMdFile) = some arts ∧
      out = sortJs cmpDate arts := by
  have h' : (mapOrAbort (extractArticleInfo read)
      (items.filter isMdFile)).map
        (fun arts => sortJs cmpModified (sortJs cmpDate arts)) = some out := h
  cases hm : mapOrAbort (extractArticleInfo read) (items.filter isMdFile) with
  | none => rw [hm] at h'; simp at h'
  | some arts =>
    rw [hm] at h'
    simp only [Option.map_some', Option.some_inj] at h'
    refine ⟨arts, rfl, ?_⟩
    rw [← h', sortJs_cmpModified]

theorem tagMem_out {items : List Str} {read : Str → Option Str}
    {out : List Article} {r : Article}
    (h : processArticles (some items) read = some out) (hr : r ∈ out) :
    ∃ p c, p ∈ items.filter isMdFile ∧ read p = some c ∧
      r = extractCore p c := by
  obtain ⟨arts, hmap, hout⟩ := tagProcess_some h
  have hperm : out.Perm arts := hout ▸ sortJs_perm cmpDate arts
  have hr' : r ∈ arts := hperm.mem_iff.1 hr
  obtain ⟨p, hp, hfx⟩ := mapOrAbort_mem _ hmap hr'
  unfold extractArticleInfo at hfx
  cases hread : read p with
  | none => rw [hread] at hfx; simp at hfx
  | some c =>
    rw [hread] at hfx
    simp only [Option.map_some', Option.some_inj] at hfx
    exact ⟨p, c, hp, hread, hfx.symm⟩

end TagBuild

namespace FmBuild

theorem fmProcess_some {items : List Str} {read : Str → Option Str}
    {out : List Article}
    (h : processArticles (some items) read = some out) :
    mapOrAbort (extractArticleInfo read) (items.filter isMdFile) =
      some out := by
  have h' : (mapOrAbort (extractArticleInfo read)
      (items.filter isMdFile)).map (sortJs cmpModified) = some out := h
  cases hm : mapOrAbort (extractArticleInfo read) (items.filter isMdFile) with
  | none => rw [hm] at h'; simp at h'
  | some arts =>
    rw [hm] at h'
    simp only [Option.map_some', Option.some_inj] at h'
    rw [sortJs_cmpModified] at h'
    rw [h']

theorem fmMem_out {items : List Str} {read : Str → Option Str}
    {out : List Article} {r : Article}
    (h : processArticles (some items) read = some out) (hr : r ∈ out) :
    ∃ p c, p ∈ items.filter isMdFile ∧ read p = some c ∧
      r = extractCore p c := by
  have hmap := fmProcess_some h
  obtain ⟨p, hp, hfx⟩ := mapOrAbort_mem _ hmap hr
  unfold extractArticleInfo at hfx
  cases hread : read p with
  | none => rw [hread] at hfx; simp at hfx
  | some c =>
    rw [hread] at hfx
    simp only [Option.map_some', Option.some_inj] at hfx
    exact ⟨p, c, hp, hread, hfx.symm⟩

end FmBuild

/-! ### Concrete builds used by witnesses and counterexamples -/

def pathA : Str := str "articles/a.md"
def pathB : Str := str "articles/b.md"
def pathN : Str := str "articles/n.md"
def pathL : Str := str "articles/l.md"
def pathH : Str := str "articles/h.md"
def pathF : Str := str "articles/f.md"
def pathP1 : Str := str "articles/a/post.md"
def pathP2 : Str := str "articles/b/post.md"

def contentA : Str := str "<meta title=\"a\" date=\"2025-12-05\" />\nAAA"
def contentB : Str := str "<meta title=\"b\" date=\"2025-01-01\" />\nBBB"
def contentTieA : Str := str "<meta title=\"a\" date=\"2025-01-01\" />\nAAA"
def contentNoTitle : Str := str "<meta date=\"2025-02-02\" />\nbody"
def contentLong : Str :=
  str "<meta title=\"t\" desc=\"" ++ List.replicate 60 'a' ++ str "\" />\nbody"
def fmContent : Str := str "---\ntitle: t\ndate: 2025-11-25\n---\nbody text"
def fmCoverContent : Str := str "---\ntitle: t\ncover: /c.jpg\n---\nbody"

def sortedRead : Str → Option Str := fun p =>
  if p = pathA then some contentA
  else if p = pathB then some contentB
  else none

def tieRead : Str → Option Str := fun p =>
  if p = pathA then some contentTieA
  else if p = pathB then some contentB
  else none

def noTitleRead : Str → Option Str := fun p =>
  if p = pathN then some contentNoTitle else none

def failRead : Str → Option Str := fun p =>
  if p = pathA then some contentA else none

def longRead : Str → Option Str := fun p =>
  if p = pathL then some contentLong else none

def plainRead : Str → Option Str := fun p =>
  if p = pathH then some (str "hello world") else none

def fmRead : Str → Option Str := fun p =>
  if p = pathF then some fmContent else none

def dualRead : Str → Option Str := fun p =>
  if p = pathP1 then some contentA
  else if p = pathP2 then some contentB
  else none

/-- The sorted two-file tag-variant build used by several witnesses. -/
def outW : List Article :=
  (TagBuild.processArticles (some [pathB, pathA]) sortedRead).getD []

/-- Lexicographic (code-unit) comparison of two JS strings, the order a
"filename ascending" tie-break would use. -/
def lexLtCh : Str → Str → Bool
  | [], [] => false
  | [], _ :: _ => true
  | _ :: _, [] => false
  | x :: xs, y :: ys => if x = y then lexLtCh xs ys else decide (x < y)

/-! ### Claims -/

/-- C1, counterexample: two files with equal `date` values, enumerated
with `b.md` before `a.md`, come out of the tag-variant build still in
enumeration order `[b.md, a.md]`, although ascending filename order
would put `a.md` first — the claimed filename tie-break does not exist
(the stable sort preserves enumeration order on ties). -/
theorem C1_counterexample :
    (TagBuild.processArticles (some [pathB, pathA]) tieRead).map
      (fun l => l.map Article.filePath) = some [str "b.md", str "a.md"] ∧
    (TagBuild.processArticles (some [pathB, pathA]) tieRead).map
      (fun l => l.map Article.date) =
        some [some (str "2025-01-01"), some (str "2025-01-01")] ∧
    lexLtCh (str "a.md") (str "b.md") = true := by
  refine ⟨by decide, by decide, by decide⟩

/-- C1, amended: the tag-variant build's output is sorted by `date`
descending (for all adjacent pairs (A, B), A.date ≥ B.date as calendar
dates) whenever every emitted record carries a valid date; records with
equal dates keep the scanner's enumeration order, not ascending
filename order.  (The front-matter variant contains no date sort at
all: its only sort uses the nonexistent `modified` field and is the
identity.) -/
theorem C1_amended_sorted {items : List Str} {read : Str → Option Str}
    {out : List Article}
    (h : TagBuild.processArticles (some items) read = some out)
    (hd : ∀ r ∈ out, (dateVal r).isSome) :
    out.Chain' (fun a b => (dateVal b).getD 0 ≤ (dateVal a).getD 0) := by
  obtain ⟨arts, hmap, hout⟩ := TagBuild.tagProcess_some h
  subst hout
  have hch := sortJs_chain cmpDate cmpDate_antisym arts
  rw [List.chain'_iff_get] at hch ⊢
  intro i hi
  have h1 := hch i hi
  have hm1 : (sortJs cmpDate arts).get ⟨i, by omega⟩ ∈ sortJs cmpDate arts :=
    List.get_mem _ _ _
  have hm2 : (sortJs cmpDate arts).get ⟨i + 1, by omega⟩ ∈ sortJs cmpDate arts :=
    List.get_mem _ _ _
  have hs1 := hd _ hm1
  have hs2 := hd _ hm2
  set x := (sortJs cmpDate arts).get ⟨i, by omega⟩ with hx
  set y := (sortJs cmpDate arts).get ⟨i + 1, by omega⟩ with hy
  cases hvx : dateVal x with
  | none => rw [hvx] at hs1; simp at hs1
  | some a =>
    cases hvy : dateVal y with
    | none => rw [hvy] at hs2; simp at hs2
    | some b =>
      have : cmpDate x y ≤ 0 := h1
      unfold cmpDate at this
      rw [hvx, hvy] at this
      simp [jsSub] at this
      simp [hvx, hvy]
      omega

/-- C1, witness: the amended sortedness theorem applied to a concrete
two-file build with distinct valid dates. -/
theorem C1_witness :
    outW.Chain' (fun a b => (dateVal b).getD 0 ≤ (dateVal a).getD 0) :=
  @C1_amended_sorted [pathB, pathA] sortedRead outW (by decide) (by decide)

/-- C2, counterexample: a build over one file whose metadata lacks a
`title` still emits exactly one record (with `title` undefined) — the
record is not excluded from the index, contradicting the claim. -/
theorem C2_counterexample :
    (TagBuild.processArticles (some [pathN]) noTitleRead).map
      (fun l => l.map Article.title) = some [none] := by decide

/-- C2, amended: neither build variant excludes records lacking a
`title` and no warning is tied to titles: every successfully read
scanned file contributes exactly one record to the index, so the output
length always equals the number of enumerated `.md` files. -/
theorem C2_amended_no_exclusion :
    (∀ (items : List Str) (read : Str → Option Str) (out : List Article),
      TagBuild.processArticles (some items) read = some out →
      out.length = (items.filter isMdFile).length) ∧
    (∀ (items : List Str) (read : Str → Option Str) (out : List Article),
      FmBuild.processArticles (some items) read = some out →
      out.length = (items.filter isMdFile).length) := by
  constructor
  · intro items read out h
    obtain ⟨arts, hmap, hout⟩ := TagBuild.tagProcess_some h
    have hlen := mapOrAbort_length _ hmap
    have hperm : out.Perm arts := hout ▸ sortJs_perm cmpDate arts
    rw [hperm.length_eq, hlen]
  · intro items read out h
    exact mapOrAbort_length _ (FmBuild.fmProcess_some h)

/-- C2, witness: the no-exclusion theorem applied to the concrete
two-file build. -/
theorem C2_witness :
    outW.length = ([pathB, pathA].filter isMdFile).length :=
  C2_amended_no_exclusion.1 [pathB, pathA] sortedRead outW (by decide)

/-- C3, counterexample: with two enumerated files of which one read
fails, the tag-variant build aborts and emits no index at all (the same
run succeeds when only the readable file is enumerated) — the failure
is not a per-file skip. -/
theorem C3_counterexample :
    TagBuild.processArticles (some [pathA, pathB]) failRead = none ∧
    (TagBuild.processArticles (some [pathA]) failRead).isSome = true := by
  refine ⟨by decide, by decide⟩

/-- C3, amended: a failed read of any single enumerated `.md` file
aborts the whole build of either variant (the exception from
`readFileSync` propagates uncaught, so no index is emitted), and a
missing articles root likewise aborts. -/
theorem C3_amended_abort :
    (∀ (items : List Str) (read : Str → Option Str) (p : Str),
      p ∈ items.filter isMdFile → read p = none →
      TagBuild.processArticles (some items) read = none) ∧
    (∀ read : Str → Option Str,
      TagBuild.processArticles none read = none) ∧
    (∀ (items : List Str) (read : Str → Option Str) (p : Str),
      p ∈ items.filter isMdFile → read p = none →
      FmBuild.processArticles (some items) read = none) ∧
    (∀ read : Str → Option Str,
      FmBuild.processArticles none read = none) := by
  refine ⟨?_, fun _ => rfl, ?_, fun _ => rfl⟩
  · intro items read p hp hread
    have hnone : mapOrAbort (TagBuild.extractArticleInfo read)
        (items.filter isMdFile) = none :=
      mapOrAbort_none _ hp (by simp [TagBuild.extractArticleInfo, hread])
    show (mapOrAbort (TagBuild.extractArticleInfo read)
      (items.filter isMdFile)).map
        (fun arts => sortJs cmpModified (sortJs cmpDate arts)) = none
    rw [hnone]; rfl
  · intro items read p hp hread
    have hnone : mapOrAbort (FmBuild.extractArticleInfo read)
        (items.filter isMdFile) = none :=
      mapOrAbort_none _ hp (by simp [FmBuild.extractArticleInfo, hread])
    show (mapOrAbort (FmBuild.extractArticleInfo read)
      (items.filter isMdFile)).map (sortJs cmpModified) = none
    rw [hnone]; rfl

/-- C3, witness: the abort theorem applied to the concrete failing
build of the counterexample. -/
theorem C3_witness :
    TagBuild.processArticles (some [pathA, pathB]) failRead = none :=
  C3_amended_abort.1 [pathA, pathB] failRead pathB (by decide) (by decide)

/-- C4, counterexample: a tag-variant file whose `desc` attribute is 60
characters long yields a record with a 60-character `preview`, exceeding
the claimed 50 + 3 bound — the tag strategy copies `desc` verbatim with
no truncation. -/
theorem C4_counterexample :
    (TagBuild.processArticles (some [pathL]) longRead).map
      (fun l => l.map (fun r => (r.preview.getD []).length)) = some [60] ∧
    53 < 60 := by
  refine ⟨by decide, by decide⟩

/-- C4, amended: the preview bound holds for the front-matter variant
only: every record of that build has a `preview` of at most 50
characters plus the 3-character ellipsis.  Tag-variant records carry
the author's `desc` verbatim (unbounded), or no preview at all. -/
theorem C4_amended_preview_bound {items : List Str} {read : Str → Option Str}
    {out : List Article} {r : Article}
    (h : FmBuild.processArticles (some items) read = some out)
    (hr : r ∈ out) : (r.preview.getD []).length ≤ 53 := by
  obtain ⟨p, c, hp, hread, hrc⟩ := FmBuild.fmMem_out h hr
  subst hrc
  have hprev : (FmBuild.extractCore p c).preview =
      some (FmBuild.fmPreview (FmBuild.matter c).2) := rfl
  rw [hprev]
  show (FmBuild.fmPreview (FmBuild.matter c).2).length ≤ 53
  unfold FmBuild.fmPreview
  rw [List.length_append]
  have h1 := List.length_take 50 (List.intercalate (str " ")
    ((List.filter (fun l => ¬ (jsTrim l).isEmpty)
      (splitCh '\n' (FmBuild.matter c).2)).take 5))
  have h2 : (str "...").length = 3 := rfl
  omega

/-- C4, witness: the bound applied to a concrete one-file front-matter
build. -/
theorem C4_witness :
    (((FmBuild.extractCore pathF fmContent).preview.getD []).length ≤ 53) :=
  @C4_amended_preview_bound [pathF] fmRead
    [FmBuild.extractCore pathF fmContent]
    (FmBuild.extractCore pathF fmContent)
    (by decide) (by decide)

/-- C5, counterexample: two distinct source paths that share a basename
(`articles/a/post.md` and `articles/b/post.md`) produce the same slug
(`basename` strips the directories before the extension strip), and a
build over both emits both records — so slugs are not unique over
distinct paths. -/
theorem C5_counterexample :
    TagBuild.slugOfPath pathP1 = TagBuild.slugOfPath pathP2 ∧
    pathP1 ≠ pathP2 ∧
    (TagBuild.processArticles (some [pathP1, pathP2]) dualRead).map
      List.length = some 2 := by
  refine ⟨by decide, by decide, by decide⟩

theorem basename_relArticles (p : Str) :
    basename (relArticles p) = basename p := by
  unfold relArticles
  by_cases hp : (str "articles/").isPrefixOf p = true
  · simp only [hp, if_true]
    obtain ⟨t, ht⟩ := List.isPrefixOf_iff_prefix.1 hp
    have hdrop : p.drop 9 = t := by
      rw [← ht, show (9 : Nat) = (str "articles/").length from rfl,
        List.drop_left]
    rw [hdrop, ← ht, basename_articles_append]
  · rw [if_neg hp]

theorem slugOfPath_relArticles (p : Str) :
    TagBuild.slugOfPath (relArticles p) = TagBuild.slugOfPath p := by
  unfold TagBuild.slugOfPath
  rw [basename_relArticles]

/-- C5, amended: slugs are derived from the basename alone (directories
stripped, then the first `.md` occurrence removed), so slug uniqueness
holds exactly when the enumerated files' slug-mapped basenames are
pairwise distinct; distinct full paths do not suffice. -/
theorem C5_amended_slug_unique {items : List Str} {read : Str → Option Str}
    {out : List Article}
    (h : TagBuild.processArticles (some items) read = some out)
    (hnd : ((items.filter isMdFile).map TagBuild.slugOfPath).Nodup) :
    (out.map (fun r => TagBuild.slugOfPath r.filePath)).Nodup := by
  obtain ⟨arts, hmap, hout⟩ := TagBuild.tagProcess_some h
  have hperm : out.Perm arts := hout ▸ sortJs_perm cmpDate arts
  have hpm : (out.map (fun r => TagBuild.slugOfPath r.filePath)).Perm
      (arts.map (fun r => TagBuild.slugOfPath r.filePath)) :=
    hperm.map _
  rw [hpm.nodup_iff]
  have hm := mapOrAbort_some _ hmap
  have h2 := congrArg
    (List.map (Option.map (fun r => TagBuild.slugOfPath r.filePath))) hm
  rw [List.map_map, List.map_map] at h2
  have h3 : (items.filter isMdFile).map
      ((Option.map (fun r => TagBuild.slugOfPath r.filePath)) ∘
        TagBuild.extractArticleInfo read) =
      (items.filter isMdFile).map (fun p => some (TagBuild.slugOfPath p)) := by
    apply List.map_congr_left
    intro p hpf
    have hmem : TagBuild.extractArticleInfo read p ∈
        (items.filter isMdFile).map (TagBuild.extractArticleInfo read) :=
      List.mem_map_of_mem _ hpf
    rw [hm] at hmem
    obtain ⟨r, _, hreq⟩ := List.mem_map.1 hmem
    show Option.map (fun r => TagBuild.slugOfPath r.filePath)
      (TagBuild.extractArticleInfo read p) = some (TagBuild.slugOfPath p)
    cases hread : read p with
    | none =>
      have : TagBuild.extractArticleInfo read p = none := by
        simp [TagBuild.extractArticleInfo, hread]
      rw [this] at hreq
      simp at hreq
    | some c =>
      have hcore : TagBuild.extractArticleInfo read p =
          some (TagBuild.extractCore p c) := by
        simp [TagBuild.extractArticleInfo, hread]
      rw [hcore]
      simp only [Option.map_some', Option.some_inj]
      have hfp : (TagBuild.extractCore p c).filePath = relArticles p := rfl
      rw [hfp, slugOfPath_relArticles]
  rw [h3] at h2
  have h4 : arts.map ((Option.map (fun r => TagBuild.slugOfPath r.filePath)) ∘
      some) = (arts.map (fun r => TagBuild.slugOfPath r.filePath)).map some := by
    rw [List.map_map]
    rfl
  rw [h4] at h2
  have h5 : (items.filter isMdFile).map
      (fun p => some (TagBuild.slugOfPath p)) =
      ((items.filter isMdFile).map TagBuild.slugOfPath).map some := by
    rw [List.map_map]
    rfl
  rw [h5] at h2
  have hinj : Function.Injective (List.map (some : Str → Option Str)) :=
    List.map_injective_iff.2 (fun a b hab => Option.some_injective _ hab)
  have := hinj h2
  exact this ▸ hnd

/-- C5, witness: the amended uniqueness theorem applied to the concrete
two-file build whose basenames differ. -/
theorem C5_witness :
    (outW.map (fun r => TagBuild.slugOfPath r.filePath)).Nodup :=
  @C5_amended_slug_unique [pathB, pathA] sortedRead outW (by decide) (by decide)

/-- C6, counterexample: a tag-variant file without a `desc` attribute
yields a record whose `preview` is undefined — no derived summary of
the body is substituted, contradicting the claim's else-branch. -/
theorem C6_counterexample :
    (TagBuild.processArticles (some [pathB]) sortedRead).map
      (fun l => l.map Article.preview) = some [none] := by decide

/-- C6, amended: under the inline-attribute-tag strategy the record's
`preview` equals the last `desc` attribute of the tag verbatim when one
is present, and is undefined (not a derived summary) otherwise; the
concrete conjunct shows a present `desc` copied verbatim. -/
theorem C6_amended_desc_verbatim :
    (∀ path raw : Str, (TagBuild.extractCore path raw).preview =
      ((TagBuild.attrsOf raw).reverse.find?
        (fun p => p.1 = str "desc")).map Prod.snd) ∧
    (TagBuild.extractCore pathA
      (str "<meta title=\"t\" desc=\"简介\" />\nbody")).preview =
      some (str "简介") := by
  constructor
  · intro path raw
    have h1 : (TagBuild.extractCore path raw).preview =
        TagBuild.lookupStr (TagBuild.metaData raw) (str "desc") := rfl
    rw [h1, TagBuild.lookup_metaData raw (str "desc") (by decide)]
  · decide

/-- C7, counterexample: a tag-variant file without a `cover` attribute
yields a record whose `cover` is undefined, not the empty string — the
claimed string-typing and `image` fallback hold only in the
front-matter variant. -/
theorem C7_counterexample :
    (TagBuild.processArticles (some [pathN]) noTitleRead).map
      (fun l => l.map Article.cover) = some [none] := by decide

/-- C7, amended: in the front-matter variant `cover` is always a string
(the `cover` value when truthy, else the `image` value when truthy,
else the empty string); in the tag variant `cover` is the `cover`
attribute or undefined, with no `image` fallback and no empty-string
default. -/
theorem C7_amended_cover (path raw : Str) :
    (∃ s, (FmBuild.extractCore path raw).cover = some s) ∧
    (∀ v, FmBuild.lookupStr (FmBuild.matter raw).1 (str "cover") = some v →
      v ≠ [] → (FmBuild.extractCore path raw).cover = some v) ∧
    (FmBuild.jsTruthy
        (FmBuild.lookupStr (FmBuild.matter raw).1 (str "cover")) = false →
      ∀ v, FmBuild.lookupStr (FmBuild.matter raw).1 (str "image") = some v →
      v ≠ [] → (FmBuild.extractCore path raw).cover = some v) ∧
    (FmBuild.jsTruthy
        (FmBuild.lookupStr (FmBuild.matter raw).1 (str "cover")) = false →
      FmBuild.jsTruthy
        (FmBuild.lookupStr (FmBuild.matter raw).1 (str "image")) = false →
      (FmBuild.extractCore path raw).cover = some []) ∧
    ((TagBuild.extractCore path raw).cover =
      ((TagBuild.attrsOf raw).reverse.find?
        (fun p => p.1 = str "cover")).map Prod.snd) := by
  have hcov : (FmBuild.extractCore path raw).cover =
      some (FmBuild.jsOr3
        (FmBuild.lookupStr (FmBuild.matter raw).1 (str "cover"))
        (FmBuild.lookupStr (FmBuild.matter raw).1 (str "image"))) := rfl
  refine ⟨⟨_, hcov⟩, ?_, ?_, ?_, ?_⟩
  · intro v hv hne
    rw [hcov, hv]
    have : FmBuild.jsTruthy (some v) = true := by
      simp [FmBuild.jsTruthy, hne]
    simp [FmBuild.jsOr3, hv, this]
  · intro hcf v hv hne
    rw [hcov, hv]
    have : FmBuild.jsTruthy (some v) = true := by
      simp [FmBuild.jsTruthy, hne]
    simp [FmBuild.jsOr3, hcf, hv, this]
  · intro hcf hif
    rw [hcov]
    simp [FmBuild.jsOr3, hcf, hif]
  · have h1 : (TagBuild.extractCore path raw).cover =
        TagBuild.lookupStr (TagBuild.metaData raw) (str "cover") := rfl
    rw [h1, TagBuild.lookup_metaData raw (str "cover") (by decide)]

/-- C7, witness: the front-matter fallback chain applied to a concrete
file with a nonempty `cover` value. -/
theorem C7_witness :
    (FmBuild.extractCore pathF fmCoverContent).cover =
      some (str "/c.jpg") :=
  (C7_amended_cover pathF fmCoverContent).2.1 (str "/c.jpg")
    (by decide) (by decide)

/-- C8, confirmed: under the inline-attribute-tag strategy the record's
`tags` come from the last `tags` attribute, split on the full-width
comma with each element trimmed, and default to the empty array when the
attribute is absent; the concrete conjunct is the spec's own example. -/
theorem C8_tags_split :
    (∀ path raw : Str, (TagBuild.extractCore path raw).tags =
      (((TagBuild.attrsOf raw).reverse.find?
        (fun p => p.1 = str "tags")).map
        (fun p => (splitCh '，' p.2).map jsTrim)).getD []) ∧
    (TagBuild.extractCore (str "articles/p.md")
      (str "<meta title=\"诗\" date=\"2025-12-05\" tags=\"随笔，古诗\" />\nbody")).tags =
      [str "随笔", str "古诗"] := by
  constructor
  · intro path raw
    have h1 : (TagBuild.extractCore path raw).tags =
        ((TagBuild.metaData raw).tags).getD [] := rfl
    rw [h1, TagBuild.tags_metaData]
  · decide

/-- C9, counterexample: a file matching neither leading pattern
(`hello world`) still yields, in the tag variant, a record whose
`cover` is undefined rather than the record default (the empty
string) — the "all metadata fields resolved to their defaults" part of
the claim fails. -/
theorem C9_counterexample :
    TagBuild.matchMeta (str "hello world") = none ∧
    FmBuild.hasFrontMatter (str "hello world") = false ∧
    (TagBuild.processArticles (some [pathH]) plainRead).map
      (fun l => l.map Article.cover) = some [none] := by
  refine ⟨by decide, by decide, by decide⟩

/-- C9, amended: when neither leading pattern matches, the entire file
is treated as body (word count and derived preview are computed over
the whole raw text) and `tags` defaults to the empty array; but the
remaining fields become undefined rather than their documented
defaults in the tag variant (`title`, `cover`, `date`, `preview` all
undefined), while the front-matter variant defaults `cover` to the
empty string and leaves `title`/`date` undefined.  Each build variant
invokes only its own parser, so no file is ever parsed by both
strategies. -/
theorem C9_amended_no_match (path raw : Str) :
    (TagBuild.matchMeta raw = none →
      (TagBuild.extractCore path raw).title = none ∧
      (TagBuild.extractCore path raw).cover = none ∧
      (TagBuild.extractCore path raw).date = none ∧
      (TagBuild.extractCore path raw).preview = none ∧
      (TagBuild.extractCore path raw).tags = [] ∧
      (TagBuild.extractCore path raw).wordCount =
        (jsTrim (collapseWs (stripTags raw))).length) ∧
    (FmBuild.hasFrontMatter raw = false →
      (FmBuild.matter raw).1 = FmBuild.emptyMeta ∧
      (FmBuild.matter raw).2 = raw ∧
      (FmBuild.extractCore path raw).title = none ∧
      (FmBuild.extractCore path raw).cover = some [] ∧
      (FmBuild.extractCore path raw).date = none ∧
      (FmBuild.extractCore path raw).tags = [] ∧
      (FmBuild.extractCore path raw).preview =
        some (FmBuild.fmPreview raw) ∧
      (FmBuild.extractCore path raw).wordCount = FmBuild.fmWordCount raw) := by
  constructor
  · intro hm
    have hd : TagBuild.metaData raw = TagBuild.emptyMeta := by
      unfold TagBuild.metaData
      rw [hm]
    refine ⟨?_, ?_, ?_, ?_, ?_, ?_⟩ <;>
      simp [TagBuild.extractCore, hd, TagBuild.lookupStr, TagBuild.emptyMeta,
        TagBuild.makeHtml]
  · intro hf
    have hmr : FmBuild.matter raw = (FmBuild.emptyMeta, raw) := by
      unfold FmBuild.matter
      cases hls : splitCh '\n' raw with
      | nil => rfl
      | cons first rest =>
        by_cases h1 : first = str "---"
        · cases rest with
          | nil => simp [h1, FmBuild.findClose]
          | cons r rs =>
            exfalso
            unfold FmBuild.hasFrontMatter at hf
            rw [hls] at hf
            simp [h1] at hf
        · simp [h1]
    refine ⟨?_, ?_, ?_, ?_, ?_, ?_, ?_, ?_⟩ <;>
      simp [FmBuild.extractCore, hmr, FmBuild.lookupStr, FmBuild.emptyMeta,
        FmBuild.jsOr3, FmBuild.jsTruthy]

/-- C9, witness: the no-match theorem applied to the concrete
`hello world` file under both variants. -/
theorem C9_witness :
    (TagBuild.extractCore pathH (str "hello world")).cover = none ∧
    (FmBuild.extractCore pathH (str "hello world")).cover = some [] :=
  ⟨((C9_amended_no_match pathH (str "hello world")).1 (by decide)).2.1,
   ((C9_amended_no_match pathH (str "hello world")).2 (by decide)).2.2.2.1⟩

/-- The emitted object literal (`generate-articles.js` lines 63–71 and
the front-matter variant's lines 50–58) carries no `slug` key, so the
property access `a.slug` performed by `public/js/article.api.js` line 11
yields `undefined`. -/
def slugField (_ : Article) : Option Str := none

/-- JS strict equality `a.slug === id` between the absent field's value
and the requested id: `undefined === id` is false for every string. -/
def jsStrictEq (v : Option Str) (i : Str) : Bool :=
  match v with
  | some t => t = i
  | none => false

/-- `articleData.find(a => a.slug === id)` from
`public/js/article.api.js` line 11. -/
def findBySlug (articles : List Article) (i : Str) : Option Article :=
  articles.find? (fun a => jsStrictEq (slugField a) i)

/-- C10, confirmed: the records carry the seven fields of the
`Article` structure and no `slug` field, so the client lookup by a
`slug` field finds no record for any id; and every emitted record's
`filePath` retains its `.md` extension, in both variants. -/
theorem C10_no_slug_field :
    (∀ (articles : List Article) (i : Str), findBySlug articles i = none) ∧
    (∀ (items : List Str) (read : Str → Option Str) (out : List Article)
      (r : Article), TagBuild.processArticles (some items) read = some out →
      r ∈ out → str ".md" <:+ r.filePath) ∧
    (∀ (items : List Str) (read : Str → Option Str) (out : List Article)
      (r : Article), FmBuild.processArticles (some items) read = some out →
      r ∈ out → str ".md" <:+ r.filePath) := by
  refine ⟨?_, ?_, ?_⟩
  · intro articles i
    exact List.find?_eq_none.2 (fun a _ => by simp [jsStrictEq, slugField])
  · intro items read out r h hr
    obtain ⟨p, c, hp, hread, hrc⟩ := TagBuild.tagMem_out h hr
    have hfp : r.filePath = relArticles p := by rw [hrc]; rfl
    rw [hfp]
    exact relArticles_md_suffix p (List.mem_filter.1 hp).2
  · intro items read out r h hr
    obtain ⟨p, c, hp, hread, hrc⟩ := FmBuild.fmMem_out h hr
    have hfp : r.filePath = relArticles p := by rw [hrc]; rfl
    rw [hfp]
    exact relArticles_md_suffix p (List.mem_filter.1 hp).2

/-- C10, witness: no id ever matches by slug against the concrete
build's output, and a concrete emitted record keeps its `.md`
extension. -/
theorem C10_witness :
    findBySlug outW (str "a") = none ∧
    str ".md" <:+ (TagBuild.extractCore pathA contentA).filePath :=
  ⟨C10_no_slug_field.1 outW (str "a"),
   C10_no_slug_field.2.1 [pathB, pathA] sortedRead outW
     (TagBuild.extractCore pathA contentA) (by decide) (by decide)⟩
